import Mathlib

/-!
Shallow embedding of the allocation file-streaming core
(`client/fs_endpoint.go`) of the nomad repository, together with proofs
settling the frozen claims about it.

Machine integers (Go `int64`) are modelled as `Int`, with explicit
two's-complement wrapping (`int64Wrap`) at the one place where overflow
is reachable.  Strings are Lean `String`s; the Go byte-level operations
`strings.TrimPrefix`, `strings.Contains` and `strconv.Atoi` are modelled
on the character list (`String.data`), which agrees with Go's byte-level
behaviour on valid UTF-8 input.
-/

namespace FsEndpoint

/-- Model of `cstructs.AllocFileInfo` restricted to the fields the
endpoint reads: entry name, directory flag and size in bytes. -/
structure AllocFileInfo where
  name : String
  isDir : Bool
  size : Int
deriving DecidableEq, Repr

instance : Inhabited AllocFileInfo := ⟨⟨"", false, 0⟩⟩

/-- Go `math.MaxInt64`. -/
def maxInt64 : Int := 2 ^ 63 - 1

/-- Go `strings.TrimPrefix s pre`: drops `pre` when it is a prefix of
`s`, otherwise returns `s` unchanged. -/
def goTrimPrefix (s pre : String) : String :=
  if pre.data.isPrefixOf s.data then ⟨s.data.drop pre.data.length⟩ else s

/-- Digit-sequence part of `strconv.Atoi`: at least one decimal digit,
with the signed value required to fit in `int64`. -/
def goAtoiCore (neg : Bool) (ds : List Char) : Option Int :=
  if ds.isEmpty then none
  else if ds.all (fun c => c.isDigit) then
    let v : Nat := ds.foldl (fun a c => a * 10 + (c.toNat - 48)) 0
    let i : Int := if neg then -(v : Int) else (v : Int)
    if -(2 ^ 63) ≤ i ∧ i ≤ 2 ^ 63 - 1 then some i else none
  else none

/-- Go `strconv.Atoi` (on a 64-bit platform): an optional sign followed
by at least one decimal digit, with the value required to fit in
`int64`; every other input is a parse error (`none`). -/
def goAtoi (s : String) : Option Int :=
  match s.data with
  | '-' :: rest => goAtoiCore true rest
  | '+' :: rest => goAtoiCore false rest
  | l => goAtoiCore false l

/-- Recursive worker for `logIndexes` (the Go `for _, entry := range
entries` loop): skips directories and names that do not carry the
`<task>.<logType>.` prefix, parses the remaining suffix with `Atoi`,
and fails hard on the first suffix that does not parse. -/
def logIndexesAux (pre : String) : List AllocFileInfo → Except String (List (Int × AllocFileInfo))
  | [] => .ok []
  | e :: rest =>
    if e.isDir then logIndexesAux pre rest
    else
      let idxStr := goTrimPrefix e.name pre
      if idxStr = e.name then logIndexesAux pre rest
      else
        match goAtoi idxStr with
        | none => .error ("failed to convert " ++ idxStr ++ " to a log index")
        | some idx =>
          match logIndexesAux pre rest with
          | .error msg => .error msg
          | .ok l => .ok ((idx, e) :: l)

/-- Embedding of `logIndexes(entries, task, logType)`
(`fs_endpoint.go:795-819`). -/
def logIndexes (entries : List AllocFileInfo) (task logType : String) :
    Except String (List (Int × AllocFileInfo)) :=
  logIndexesAux (task ++ "." ++ logType ++ ".") entries

/-- Comparison used by `indexTupleArray.Less` (`fs_endpoint.go:789`);
`sort.Sort` produces a permutation that is sorted with respect to it. -/
def idxLe (a b : Int × AllocFileInfo) : Prop := a.1 ≤ b.1

instance : DecidableRel idxLe := fun a b => inferInstanceAs (Decidable (a.1 ≤ b.1))

instance : IsTotal (Int × AllocFileInfo) idxLe := ⟨fun a b => Int.le_total a.1 b.1⟩

instance : IsTrans (Int × AllocFileInfo) idxLe := ⟨fun _ _ _ h h' => Int.le_trans h h'⟩

/-- Embedding of `sort.Sort(indexes)` (`fs_endpoint.go:838`): some
permutation of the tuples sorted by ascending parsed index. -/
def sortByIdx (l : List (Int × AllocFileInfo)) : List (Int × AllocFileInfo) :=
  List.insertionSort idxLe l

/-- Embedding of `sort.Search` on the sorted tuple array with predicate
`indexes[i].idx >= desiredIdx`, followed by the `if i == l { i = l - 1 }`
adjustment (`fs_endpoint.go:839-844`).  On a sorted array Go's binary
search returns the smallest position satisfying the predicate, which is
exactly `List.findIdx`. -/
def chosenPos (sorted : List (Int × AllocFileInfo)) (desiredIdx : Int) : Nat :=
  let i := sorted.findIdx (fun t => decide (desiredIdx ≤ t.1))
  if i = sorted.length then sorted.length - 1 else i

/-- Embedding of the offset-resolution loop of `findClosest`
(`fs_endpoint.go:846-888`), made total with an explicit iteration bound
`fuel`; `none` means the bound was exhausted before the loop broke.
Each iteration reads `s := indexes[idx].entry.Size` and either breaks
with the current position/offset, clamps at the first or last segment,
or moves one segment backward (negative offset) or forward (positive
offset), exactly as the source loop does. -/
def resolveLoop (ts : List (Int × AllocFileInfo)) : Nat → Nat → Int → Option (Nat × Int)
  | 0, _, _ => none
  | fuel + 1, pos, off =>
    let s := (ts.getD pos default).2.size
    if off = 0 then some (pos, off)
    else if off < 0 then
      if 0 ≤ s + off then some (pos, s + off)
      else if pos = 0 then some (pos, 0)
      else resolveLoop ts fuel (pos - 1) (s + off)
    else
      if off ≤ s then some (pos, off)
      else if pos = ts.length - 1 then some (pos, s)
      else resolveLoop ts fuel (pos + 1) (off - s)

/-- Embedding of `findClosest(entries, desiredIdx, desiredOffset, task,
logType)` (`fs_endpoint.go:825-891`).  The offset walk is run with fuel
equal to the number of matching segments, which is proved sufficient
(claim C10); the fuel-exhaustion error is therefore unreachable. -/
def findClosest (entries : List AllocFileInfo) (desiredIdx desiredOffset : Int)
    (task logType : String) : Except String (AllocFileInfo × Int × Int) :=
  match logIndexes entries task logType with
  | .error msg => .error msg
  | .ok indexes =>
    if indexes.length = 0 then
      .error ("log entry for task " ++ task ++ " and log type " ++ logType ++ " not found")
    else
      let sorted := sortByIdx indexes
      match resolveLoop sorted sorted.length (chosenPos sorted desiredIdx) desiredOffset with
      | none => .error "offset walk exhausted its iteration bound"
      | some (pos, off) =>
        let t := sorted.getD pos default
        .ok (t.2, t.1, off)

instance exceptDecEq {ε α : Type} [DecidableEq ε] [DecidableEq α] : DecidableEq (Except ε α)
  | .error a, .error b =>
    if h : a = b then .isTrue (by rw [h]) else .isFalse (fun c => by cases c; exact h rfl)
  | .error _, .ok _ => .isFalse (fun c => by cases c)
  | .ok _, .error _ => .isFalse (fun c => by cases c)
  | .ok a, .ok b =>
    if h : a = b then .isTrue (by rw [h]) else .isFalse (fun c => by cases c; exact h rfl)

/-- Decision taken by one iteration of the `logsImpl` segment loop for
the segment it is about to stream (`fs_endpoint.go:535-547`):
`stop` is the bare `return nil` of the `idx > maxIndex` branch;
`tailLast` tails the segment with an already-closed `eofCancelCh` and
`exitAfter = true`; `tailAwait` tails it with
`blockUntilNextLog(..., idx+1)` as the cancel channel. -/
inductive SegmentPlan where
  | stop
  | tailLast (entry : AllocFileInfo) (idx openOffset : Int)
  | tailAwait (entry : AllocFileInfo) (idx openOffset nextWait : Int)
deriving DecidableEq, Repr

/-- Embedding of the head of a `logsImpl` loop iteration
(`fs_endpoint.go:519-547`): compute `maxIndex` (only consulted when
`follow` is false) via `findClosest(entries, MaxInt64, 0, ...)`, select
the segment via `findClosest(entries, nextIdx, offset, ...)`, and pick
the terminal policy for it. -/
def planSegment (follow : Bool) (entries : List AllocFileInfo) (nextIdx offset : Int)
    (task logType : String) : Except String SegmentPlan :=
  match (match follow with
    | true => Except.ok maxInt64
    | false =>
      match findClosest entries maxInt64 0 task logType with
      | .error m => Except.error m
      | .ok r => Except.ok r.2.1) with
  | .error m => .error m
  | .ok maxIndex =>
    match findClosest entries nextIdx offset task logType with
    | .error m => .error m
    | .ok r =>
      if follow = false ∧ maxIndex < r.2.1 then .ok .stop
      else if follow = false ∧ r.2.1 = maxIndex then .ok (.tailLast r.1 r.2.1 r.2.2)
      else .ok (.tailAwait r.1 r.2.1 r.2.2 (r.2.1 + 1))

/-- Model of the Go `error` values that can reach the tail of a
`logsImpl` iteration: the `syscall.EPIPE` sentinel, an
`os.IsNotExist` error, or any other error identified by its message. -/
inductive GoError where
  | epipe
  | notExist
  | errString (msg : String)
deriving DecidableEq, Repr

/-- Message text of `io.ErrClosedPipe`. -/
def ioErrClosedPipeMsg : String := "io: read/write on closed pipe"

/-- Message text of `syscall.EPIPE`. -/
def epipeMsg : String := "broken pipe"

/-- Message text of `syscall.ECONNRESET`. -/
def econnresetMsg : String := "connection reset by peer"

/-- Go `err.Error()` for the modelled error values. -/
def GoError.message : GoError → String
  | .epipe => epipeMsg
  | .notExist => "file does not exist"
  | .errString m => m

/-- Whether `sub` occurs as a contiguous sublist of the second list. -/
def listInfixOf (sub : List Char) : List Char → Bool
  | [] => sub.isEmpty
  | c :: rest => sub.isPrefixOf (c :: rest) || listInfixOf sub rest

/-- Go `strings.Contains s sub`. -/
def goContains (s sub : String) : Bool := listInfixOf sub.data s.data

/-- Embedding of `parseFramerErr` (`fs_endpoint.go:895-920`): a nil
error is passed through; a non-nil error whose message contains the
closed-pipe, broken-pipe, connection-reset or "forcibly closed" text is
replaced by the `syscall.EPIPE` sentinel; everything else is returned
unchanged. -/
def parseFramerErr : Option GoError → Option GoError
  | none => none
  | some err =>
    let errMsg := err.message
    if goContains errMsg ioErrClosedPipeMsg then some .epipe
    else if goContains errMsg epipeMsg || goContains errMsg econnresetMsg then some .epipe
    else if goContains errMsg "forcibly closed" then some .epipe
    else some err

/-- Outcome of the post-`streamFile` checks of a `logsImpl` iteration. -/
inductive StreamDecision where
  | returnClean
  | retryListing
  | returnError (e : GoError)
  | continueNext
deriving DecidableEq, Repr

/-- Embedding of the tail of a `logsImpl` loop iteration
(`fs_endpoint.go:559-590`), given the error returned by `streamFile`
(with the context not yet cancelled): a not-exist error relists (the
segment was rotated out), the `EPIPE` sentinel exits cleanly, any other
error propagates; on success the loop exits when `exitAfter` was set or
the framer has stopped, and otherwise advances to the next segment. -/
def afterStreamFile (err : Option GoError) (exitAfter framerExited : Bool) : StreamDecision :=
  match err with
  | some e =>
    if e = .notExist then .retryListing
    else if e = .epipe then .returnClean
    else .returnError e
  | none =>
    if exitAfter then .returnClean
    else if framerExited then .returnClean
    else .continueNext

/-- Successful follow-mode iterations of the `logsImpl` segment loop:
for each directory listing produced by `fs.List`, select a segment with
`findClosest(entries, nextIdx, offset, ...)`, stream it, then set
`offset = 0` and `nextIdx = idx + 1` (`fs_endpoint.go:507-590`).  The
returned list is the sequence of streamed segment indexes; the run
stops at the first listing on which `findClosest` fails. -/
def logsRun (task logType : String) : List (List AllocFileInfo) → Int → Int → List Int
  | [], _, _ => []
  | entries :: rest, nextIdx, offset =>
    match findClosest entries nextIdx offset task logType with
    | .error _ => []
    | .ok r => r.2.1 :: logsRun task logType rest (r.2.1 + 1) 0

/-- Hypothesis under which claim C2 is provable: every listing consumed
by the run contains at least one parsed segment index that is at least
the `nextIdx` current at that iteration. -/
def listingsAdequate (task logType : String) : List (List AllocFileInfo) → Int → Bool
  | [], _ => true
  | entries :: rest, nextIdx =>
    match findClosest entries nextIdx 0 task logType with
    | .error _ => true
    | .ok r =>
      (match logIndexes entries task logType with
       | .error _ => false
       | .ok l => l.any (fun t => decide (nextIdx ≤ t.1))) &&
      listingsAdequate task logType rest (r.2.1 + 1)

/-- The `"file truncated"` event constant (`fs_endpoint.go:61`). -/
def truncateEvent : String := "file truncated"

/-- State of the `streamFile` read loop (`fs_endpoint.go:597-719`)
between blocking points: the current absolute offset, whether a
positive `limit` is in force, the bytes remaining under that limit
(the `N` field of the `io.LimitedReader`), and the pending event to
attach to the next frame. -/
structure TailState where
  offset : Int
  hasLimit : Bool
  remaining : Int
  lastEvent : String
deriving DecidableEq, Repr

/-- State of `streamFile` immediately after opening the file: offset as
requested, a limited reader iff `limit > 0` (`fs_endpoint.go:607-612`),
no pending event. -/
def initTailState (offset limit : Int) : TailState :=
  { offset := offset, hasLimit := decide (0 < limit), remaining := limit, lastEvent := "" }

/-- One pass of the `streamFile` read loop (`fs_endpoint.go:632-654`)
in which `fileReader.Read` returned `n` bytes: the offset advances by
`n`, a limited reader decrements its remaining count by `n`, and a
frame carrying the pending event and the post-payload offset is sent
when `n != 0 || lastEvent != ""`; the pending event is then cleared.
The frame is reported as its `(event, offset)` annotation. -/
def tailRead (st : TailState) (n : Int) : TailState × Option (String × Int) :=
  let offset' := st.offset + n
  let frame := if n ≠ 0 ∨ st.lastEvent ≠ "" then some (st.lastEvent, offset') else none
  ({ offset := offset'
     hasLimit := st.hasLimit
     remaining := if st.hasLimit then st.remaining - n else st.remaining
     lastEvent := "" }, frame)

/-- Fold of `tailRead` over a list of read sizes. -/
def tailReads (st : TailState) : List Int → TailState
  | [] => st
  | n :: ns => tailReads (tailRead st n).1 ns

/-- Embedding of the `changes.Truncated` handler of `streamFile`
(`fs_endpoint.go:676-705`): the current reader is closed and reopened
at offset 0; when a positive limit is in force the new reader is capped
at the `N` remaining in the old `io.LimitedReader` (not at the original
limit); `lastEvent` is set to `"file truncated"`. -/
def tailTruncate (st : TailState) : TailState :=
  { st with offset := 0, lastEvent := truncateEvent }

/-- Embedding of the origin validation switch of the stream and logs
session handlers (`fs_endpoint.go:179-186` and `352-359`): `start` and
`end` are accepted, the empty origin defaults to `start`, anything else
is rejected. -/
def normalizeOrigin (origin : String) : Except String String :=
  if origin = "start" ∨ origin = "end" then .ok origin
  else if origin = "" then .ok "start"
  else .error "origin must be start or end"

/-- Two's-complement wrap of an integer into the `int64` range,
modelling Go's defined signed-overflow behaviour. -/
def int64Wrap (x : Int) : Int := (x + 2 ^ 63) % 2 ^ 64 - 2 ^ 63

/-- Embedding of the offset calculation of the file-stream session
handler (`fs_endpoint.go:212-218`): for origin `end` the requested
offset is subtracted from the stat-reported size (with `int64`
arithmetic) and clamped below at 0; for any other (already normalized)
origin the requested offset is used unchanged. -/
def computeStreamOffset (origin : String) (offset size : Int) : Int :=
  if origin = "end" then
    let o := int64Wrap (size - offset)
    if o < 0 then 0 else o
  else offset

/-- The `acl.NamespaceCapabilityReadFS` constant. -/
def NamespaceCapabilityReadFS : String := "read-fs"

/-- The `acl.NamespaceCapabilityReadLogs` constant. -/
def NamespaceCapabilityReadLogs : String := "read-logs"

/-- Model of a resolved `acl.ACL` object: its `AllowNsOp` method. -/
structure ACLObject where
  allowNsOp : String → String → Bool

/-- Embedding of the permission check of the logs session handler
(`fs_endpoint.go:324-335`): with a resolved ACL object the request is
denied exactly when the namespace grants neither `read-fs` nor
`read-logs`; a nil ACL object (ACLs disabled) never denies. -/
def logsPermissionDenied (aclObj : Option ACLObject) (ns : String) : Bool :=
  match aclObj with
  | none => false
  | some a =>
    let readfs := a.allowNsOp ns NamespaceCapabilityReadFS
    let logs := a.allowNsOp ns NamespaceCapabilityReadLogs
    !readfs && !logs

/-- Embedding of the permission check of the file-stream session
handler (`fs_endpoint.go:161-168`): with a resolved ACL object the
request is denied exactly when the namespace does not grant
`read-fs`. -/
def streamPermissionDenied (aclObj : Option ACLObject) (ns : String) : Bool :=
  match aclObj with
  | none => false
  | some a => !(a.allowNsOp ns NamespaceCapabilityReadFS)

/-! ## Helper lemmas about parsing and sorting -/

theorem goAtoiCore_range {neg : Bool} {ds : List Char} {i : Int}
    (h : goAtoiCore neg ds = some i) : -(2 ^ 63) ≤ i ∧ i ≤ 2 ^ 63 - 1 := by
  simp only [goAtoiCore] at h
  split_ifs at h
  all_goals injection h with h
  all_goals omega

theorem goAtoi_range {s : String} {i : Int} (h : goAtoi s = some i) :
    -(2 ^ 63) ≤ i ∧ i ≤ 2 ^ 63 - 1 := by
  unfold goAtoi at h
  split at h <;> exact goAtoiCore_range h

theorem logIndexesAux_sound {pre : String} {entries : List AllocFileInfo}
    {l : List (Int × AllocFileInfo)} (h : logIndexesAux pre entries = .ok l) :
    ∀ t ∈ l, t.2 ∈ entries ∧ t.2.isDir = false ∧
      goTrimPrefix t.2.name pre ≠ t.2.name ∧
      goAtoi (goTrimPrefix t.2.name pre) = some t.1 := by
  induction entries generalizing l with
  | nil =>
    simp only [logIndexesAux] at h
    injection h with h
    subst h
    intro t ht
    exact absurd ht (List.not_mem_nil t)
  | cons e rest ih =>
    simp only [logIndexesAux] at h
    by_cases hd : e.isDir = true
    · rw [if_pos hd] at h
      intro t ht
      obtain ⟨h1, h2, h3, h4⟩ := ih h t ht
      exact ⟨List.mem_cons_of_mem e h1, h2, h3, h4⟩
    · rw [if_neg hd] at h
      by_cases hm : goTrimPrefix e.name pre = e.name
      · rw [if_pos hm] at h
        intro t ht
        obtain ⟨h1, h2, h3, h4⟩ := ih h t ht
        exact ⟨List.mem_cons_of_mem e h1, h2, h3, h4⟩
      · rw [if_neg hm] at h
        cases hga : goAtoi (goTrimPrefix e.name pre) with
        | none => rw [hga] at h; exact absurd h (by simp)
        | some idx =>
          rw [hga] at h
          cases hrec : logIndexesAux pre rest with
          | error m => rw [hrec] at h; exact absurd h (by simp)
          | ok l' =>
            rw [hrec] at h
            injection h with h
            subst h
            intro t ht
            rcases List.mem_cons.mp ht with h' | h'
            · subst h'
              exact ⟨List.mem_cons_self e rest, Bool.not_eq_true e.isDir ▸ hd, hm, hga⟩
            · obtain ⟨h1, h2, h3, h4⟩ := ih hrec t h'
              exact ⟨List.mem_cons_of_mem e h1, h2, h3, h4⟩

theorem logIndexesAux_complete {pre : String} {entries : List AllocFileInfo}
    {l : List (Int × AllocFileInfo)} (h : logIndexesAux pre entries = .ok l) :
    ∀ e ∈ entries, e.isDir = false → goTrimPrefix e.name pre ≠ e.name →
      ∃ i, goAtoi (goTrimPrefix e.name pre) = some i ∧ (i, e) ∈ l := by
  induction entries generalizing l with
  | nil =>
    intro e he
    exact absurd he (List.not_mem_nil e)
  | cons e0 rest ih =>
    simp only [logIndexesAux] at h
    intro e he hdir hmatch
    rcases List.mem_cons.mp he with h' | h'
    · subst h'
      rw [if_neg (by simp [hdir])] at h
      rw [if_neg hmatch] at h
      cases hga : goAtoi (goTrimPrefix e.name pre) with
      | none => rw [hga] at h; exact absurd h (by simp)
      | some idx =>
        rw [hga] at h
        cases hrec : logIndexesAux pre rest with
        | error m => rw [hrec] at h; exact absurd h (by simp)
        | ok l' =>
          rw [hrec] at h
          injection h with h
          subst h
          exact ⟨idx, rfl, List.mem_cons_self _ _⟩
    · by_cases hd : e0.isDir = true
      · rw [if_pos hd] at h
        exact ih h e h' hdir hmatch
      · rw [if_neg hd] at h
        by_cases hm : goTrimPrefix e0.name pre = e0.name
        · rw [if_pos hm] at h
          exact ih h e h' hdir hmatch
        · rw [if_neg hm] at h
          cases hga : goAtoi (goTrimPrefix e0.name pre) with
          | none => rw [hga] at h; exact absurd h (by simp)
          | some idx =>
            rw [hga] at h
            cases hrec : logIndexesAux pre rest with
            | error m => rw [hrec] at h; exact absurd h (by simp)
            | ok l' =>
              rw [hrec] at h
              injection h with h
              subst h
              obtain ⟨i, hi, hmem⟩ := ih hrec e h' hdir hmatch
              exact ⟨i, hi, List.mem_cons_of_mem _ hmem⟩

theorem logIndexes_sound {entries : List AllocFileInfo} {task logType : String}
    {l : List (Int × AllocFileInfo)} (h : logIndexes entries task logType = .ok l) :
    ∀ t ∈ l, t.2 ∈ entries ∧ t.2.isDir = false ∧
      goTrimPrefix t.2.name (task ++ "." ++ logType ++ ".") ≠ t.2.name ∧
      goAtoi (goTrimPrefix t.2.name (task ++ "." ++ logType ++ ".")) = some t.1 :=
  logIndexesAux_sound h

theorem logIndexes_idx_range {entries : List AllocFileInfo} {task logType : String}
    {l : List (Int × AllocFileInfo)} (h : logIndexes entries task logType = .ok l) :
    ∀ t ∈ l, -(2 ^ 63) ≤ t.1 ∧ t.1 ≤ maxInt64 := by
  intro t ht
  obtain ⟨-, -, -, h4⟩ := logIndexes_sound h t ht
  exact goAtoi_range h4

theorem sortByIdx_perm (l : List (Int × AllocFileInfo)) : List.Perm (sortByIdx l) l :=
  List.perm_insertionSort idxLe l

theorem sortByIdx_sorted (l : List (Int × AllocFileInfo)) : List.Sorted idxLe (sortByIdx l) :=
  List.sorted_insertionSort idxLe l

theorem sortByIdx_mem {l : List (Int × AllocFileInfo)} {t : Int × AllocFileInfo} :
    t ∈ sortByIdx l ↔ t ∈ l :=
  (sortByIdx_perm l).mem_iff

theorem getD_mem_of_lt {α : Type} [Inhabited α] {l : List α} {n : Nat} (h : n < l.length) :
    l.getD n default ∈ l := by
  rw [List.getD_eq_getElem?_getD, List.getElem?_eq_getElem h]
  exact List.getElem_mem h

theorem sorted_le_last {l : List (Int × AllocFileInfo)} (hs : List.Sorted idxLe l) :
    ∀ t ∈ l, t.1 ≤ (l.getD (l.length - 1) default).1 := by
  induction l with
  | nil => intro t ht; exact absurd ht (List.not_mem_nil t)
  | cons a l' ih =>
    rw [List.sorted_cons] at hs
    obtain ⟨ha, hs'⟩ := hs
    intro t ht
    cases l' with
    | nil =>
      rcases List.mem_cons.mp ht with h' | h'
      · subst h'; simp
      · exact absurd h' (List.not_mem_nil t)
    | cons b l'' =>
      have hstep : ((a :: b :: l'').getD ((a :: b :: l'').length - 1) default)
          = ((b :: l'').getD ((b :: l'').length - 1) default) := by
        simp [List.getD_cons_succ]
      rw [hstep]
      rcases List.mem_cons.mp ht with h' | h'
      · subst h'
        have hb : t.1 ≤ b.1 := ha b (List.mem_cons_self b l'')
        have hlast := ih hs' b (List.mem_cons_self b l'')
        exact le_trans hb hlast
      · exact ih hs' t h'

theorem sorted_first_le {l : List (Int × AllocFileInfo)} (hs : List.Sorted idxLe l) :
    ∀ t ∈ l, (l.getD 0 default).1 ≤ t.1 := by
  cases l with
  | nil => intro t ht; exact absurd ht (List.not_mem_nil t)
  | cons a l' =>
    rw [List.sorted_cons] at hs
    intro t ht
    rcases List.mem_cons.mp ht with h' | h'
    · subst h'; simp
    · exact hs.1 t h'

/-! ## Helper lemmas about the offset-resolution loop -/

theorem getD_eq_getElem {α : Type} [Inhabited α] {l : List α} {n : Nat} (h : n < l.length) :
    l.getD n default = l[n] := by
  rw [List.getD_eq_getElem?_getD, List.getElem?_eq_getElem h]
  rfl

theorem resolveLoop_pos_lt {ts : List (Int × AllocFileInfo)} :
    ∀ {fuel pos : Nat} {off : Int} {r : Nat × Int}, pos < ts.length →
      resolveLoop ts fuel pos off = some r → r.1 < ts.length := by
  intro fuel
  induction fuel with
  | zero => intro pos off r h hr; exact absurd hr (by simp [resolveLoop])
  | succ fuel ih =>
    intro pos off r h hr
    simp only [resolveLoop] at hr
    split_ifs at hr
    all_goals first
      | (cases hr; exact h)
      | (exact ih (by omega) hr)

theorem resolveLoop_some {ts : List (Int × AllocFileInfo)} :
    ∀ {fuel pos : Nat} {off : Int}, pos < ts.length →
      (off < 0 → pos < fuel) → (0 ≤ off → ts.length - pos ≤ fuel) →
      ∃ r, resolveLoop ts fuel pos off = some r := by
  intro fuel
  induction fuel with
  | zero =>
    intro pos off h h1 h2
    rcases lt_or_le off 0 with ho | ho
    · exact absurd (h1 ho) (by omega)
    · exact absurd (h2 ho) (by omega)
  | succ fuel ih =>
    intro pos off h h1 h2
    simp only [resolveLoop]
    split_ifs with h0 hneg hge hp0 hle hlast
    · exact ⟨_, rfl⟩
    · exact ⟨_, rfl⟩
    · exact ⟨_, rfl⟩
    · exact ih (by omega) (fun _ => by omega) (fun hc => absurd hc (by omega))
    · exact ⟨_, rfl⟩
    · exact ⟨_, rfl⟩
    · have hlen := h2 (by omega)
      exact ih (by omega) (fun hc => by omega) (fun _ => by omega)

theorem resolveLoop_bounds {ts : List (Int × AllocFileInfo)}
    (hnn : ∀ t ∈ ts, 0 ≤ t.2.size) :
    ∀ {fuel pos : Nat} {off : Int} {r : Nat × Int}, pos < ts.length →
      resolveLoop ts fuel pos off = some r →
      0 ≤ r.2 ∧ r.2 ≤ (ts.getD r.1 default).2.size := by
  intro fuel
  induction fuel with
  | zero => intro pos off r h hr; exact absurd hr (by simp [resolveLoop])
  | succ fuel ih =>
    intro pos off r h hr
    have hs : 0 ≤ (ts.getD pos default).2.size := hnn _ (getD_mem_of_lt h)
    simp only [resolveLoop] at hr
    split_ifs at hr
    all_goals first
      | (cases hr; dsimp only; omega)
      | (exact ih (by omega) hr)

theorem resolveLoop_zero {ts : List (Int × AllocFileInfo)} {fuel pos : Nat} (h : 1 ≤ fuel) :
    resolveLoop ts fuel pos 0 = some (pos, 0) := by
  cases fuel with
  | zero => omega
  | succ fuel => simp [resolveLoop]

theorem resolveLoop_last_stay {ts : List (Int × AllocFileInfo)} {fuel : Nat} {off : Int}
    (hf : 1 ≤ fuel) (hoff : 0 ≤ off) :
    ∃ o, resolveLoop ts fuel (ts.length - 1) off = some (ts.length - 1, o) := by
  cases fuel with
  | zero => omega
  | succ fuel =>
    simp only [resolveLoop]
    split_ifs
    all_goals first
      | exact ⟨_, rfl⟩
      | (exfalso; omega)

theorem resolveLoop_backward {ts : List (Int × AllocFileInfo)}
    (hnn : ∀ t ∈ ts, 0 ≤ t.2.size) :
    ∀ {fuel pos : Nat} {off : Int}, pos < fuel → pos < ts.length → off < 0 →
      off + ((ts.take (pos + 1)).map (fun t => t.2.size)).sum < 0 →
      resolveLoop ts fuel pos off = some (0, 0) := by
  intro fuel
  induction fuel with
  | zero => intro pos off h1 h2 h3 h4; omega
  | succ fuel ih =>
    intro pos off h1 h2 h3 h4
    have hsum : ((ts.take (pos + 1)).map (fun t => t.2.size)).sum
        = ((ts.take pos).map (fun t => t.2.size)).sum + (ts.getD pos default).2.size := by
      rw [getD_eq_getElem h2, List.map_take, List.map_take, List.take_succ, List.getElem?_map,
        List.getElem?_eq_getElem h2]
      simp
    have htk : 0 ≤ ((ts.take pos).map (fun t => t.2.size)).sum := by
      apply List.sum_nonneg
      intro x hx
      obtain ⟨t, ht, rfl⟩ := List.mem_map.mp hx
      exact hnn t (List.mem_of_mem_take ht)
    simp only [resolveLoop]
    rw [if_neg (show ¬off = 0 by omega), if_pos h3,
      if_neg (show ¬0 ≤ (ts.getD pos default).2.size + off by omega)]
    by_cases hp0 : pos = 0
    · rw [if_pos hp0, hp0]
    · rw [if_neg hp0]
      have hposfix : pos - 1 + 1 = pos := by omega
      exact ih (by omega) (by omega) (by omega) (by rw [hposfix]; omega)

/-! ## Helper lemmas about findClosest -/

theorem chosenPos_lt {sorted : List (Int × AllocFileInfo)} (h : sorted ≠ []) (d : Int) :
    chosenPos sorted d < sorted.length := by
  simp only [chosenPos]
  have h1 := @List.findIdx_le_length _ (fun t : Int × AllocFileInfo => decide (d ≤ t.1)) sorted
  have h2 : 0 < sorted.length := List.length_pos.mpr h
  split_ifs with he
  · omega
  · omega

theorem findClosest_eq {entries : List AllocFileInfo} {task logType : String}
    {dIdx dOff : Int} {e : AllocFileInfo} {i off : Int}
    (h : findClosest entries dIdx dOff task logType = .ok (e, i, off)) :
    ∃ l pos, logIndexes entries task logType = .ok l ∧ l ≠ [] ∧
      resolveLoop (sortByIdx l) (sortByIdx l).length (chosenPos (sortByIdx l) dIdx) dOff
        = some (pos, off) ∧
      ((sortByIdx l).getD pos default).1 = i ∧ ((sortByIdx l).getD pos default).2 = e := by
  unfold findClosest at h
  cases hl : logIndexes entries task logType with
  | error m =>
    simp only [hl] at h
    exact absurd h (by simp)
  | ok l =>
    simp only [hl] at h
    by_cases hz : l.length = 0
    · rw [if_pos hz] at h; exact absurd h (by simp)
    · rw [if_neg hz] at h
      cases hr : resolveLoop (sortByIdx l) (sortByIdx l).length (chosenPos (sortByIdx l) dIdx)
          dOff with
      | none =>
        simp only [hr] at h
        exact absurd h (by simp)
      | some r =>
        obtain ⟨pos, o⟩ := r
        simp only [hr] at h
        injection h with h
        rw [Prod.mk.injEq, Prod.mk.injEq] at h
        obtain ⟨h1, h2, h3⟩ := h
        subst h3
        exact ⟨l, pos, rfl, by simpa [List.length_eq_zero] using hz, hr, h2, h1⟩

theorem findClosest_of {entries : List AllocFileInfo} {task logType : String}
    {dIdx dOff : Int} {l : List (Int × AllocFileInfo)} {pos : Nat} {off : Int}
    (hl : logIndexes entries task logType = .ok l) (hne : l ≠ [])
    (hr : resolveLoop (sortByIdx l) (sortByIdx l).length (chosenPos (sortByIdx l) dIdx) dOff
      = some (pos, off)) :
    findClosest entries dIdx dOff task logType
      = .ok (((sortByIdx l).getD pos default).2, ((sortByIdx l).getD pos default).1, off) := by
  unfold findClosest
  simp only [hl]
  rw [if_neg (by simpa [List.length_eq_zero] using hne)]
  simp only [hr]

theorem take_map_sum_le {l : List (Int × AllocFileInfo)} (hnn : ∀ t ∈ l, 0 ≤ t.2.size)
    (n : Nat) :
    ((l.take n).map (fun t => t.2.size)).sum ≤ (l.map (fun t => t.2.size)).sum := by
  conv_rhs => rw [← List.take_append_drop n l]
  rw [List.map_append, List.sum_append]
  have hd : 0 ≤ ((l.drop n).map (fun t => t.2.size)).sum := by
    apply List.sum_nonneg
    intro x hx
    obtain ⟨t, ht, rfl⟩ := List.mem_map.mp hx
    exact hnn t (List.mem_of_mem_drop ht)
  omega

theorem sortByIdx_ne_nil {l : List (Int × AllocFileInfo)} (hne : l ≠ []) : sortByIdx l ≠ [] := by
  intro hc
  apply hne
  have hlen : (sortByIdx l).length = l.length := (sortByIdx_perm l).length_eq
  rw [hc] at hlen
  exact List.length_eq_zero.mp hlen.symm

theorem findClosest_zero_ge {entries : List AllocFileInfo} {task logType : String} {d : Int}
    {l : List (Int × AllocFileInfo)}
    (hl : logIndexes entries task logType = .ok l) (hne : l ≠ [])
    (hex : ∃ t ∈ l, d ≤ t.1) :
    ∃ e i, findClosest entries d 0 task logType = .ok (e, i, 0) ∧ d ≤ i ∧ (i, e) ∈ l := by
  obtain ⟨t, htl, htd⟩ := hex
  have hts : t ∈ sortByIdx l := sortByIdx_mem.mpr htl
  have hfound : (sortByIdx l).findIdx (fun t => decide (d ≤ t.1)) < (sortByIdx l).length :=
    List.findIdx_lt_length_of_exists ⟨t, hts, by simpa using htd⟩
  have hcp : chosenPos (sortByIdx l) d = (sortByIdx l).findIdx (fun t => decide (d ≤ t.1)) := by
    simp only [chosenPos]
    rw [if_neg (by omega)]
  have hr : resolveLoop (sortByIdx l) (sortByIdx l).length (chosenPos (sortByIdx l) d) 0
      = some (chosenPos (sortByIdx l) d, 0) := resolveLoop_zero (by omega)
  have hfc := findClosest_of hl hne hr
  refine ⟨_, _, hfc, ?_, ?_⟩
  · rw [hcp, getD_eq_getElem hfound]
    exact of_decide_eq_true (List.findIdx_getElem (w := hfound))
  · have hmem := getD_mem_of_lt (l := sortByIdx l)
      (n := chosenPos (sortByIdx l) d) (by rw [hcp]; exact hfound)
    exact sortByIdx_mem.mp hmem

theorem findClosest_max {entries : List AllocFileInfo} {task logType : String}
    {l : List (Int × AllocFileInfo)}
    (hl : logIndexes entries task logType = .ok l) (hne : l ≠ []) :
    ∃ e i, findClosest entries maxInt64 0 task logType = .ok (e, i, 0) ∧
      (i, e) ∈ l ∧ ∀ t ∈ l, t.1 ≤ i := by
  have hsne : sortByIdx l ≠ [] := sortByIdx_ne_nil hne
  have hpos : 0 < (sortByIdx l).length := List.length_pos.mpr hsne
  have hcplt : chosenPos (sortByIdx l) maxInt64 < (sortByIdx l).length := chosenPos_lt hsne _
  have hr : resolveLoop (sortByIdx l) (sortByIdx l).length (chosenPos (sortByIdx l) maxInt64) 0
      = some (chosenPos (sortByIdx l) maxInt64, 0) := resolveLoop_zero (by omega)
  have hfc := findClosest_of hl hne hr
  refine ⟨_, _, hfc, sortByIdx_mem.mp (getD_mem_of_lt hcplt), ?_⟩
  intro u hu
  have hu' : u ∈ sortByIdx l := sortByIdx_mem.mpr hu
  by_cases hfi : (sortByIdx l).findIdx (fun t => decide (maxInt64 ≤ t.1)) = (sortByIdx l).length
  · have hcp_eq : chosenPos (sortByIdx l) maxInt64 = (sortByIdx l).length - 1 := by
      simp only [chosenPos]
      rw [if_pos hfi]
    rw [hcp_eq]
    exact sorted_le_last (sortByIdx_sorted l) u hu'
  · have hlt : (sortByIdx l).findIdx (fun t => decide (maxInt64 ≤ t.1)) < (sortByIdx l).length :=
      lt_of_le_of_ne (List.findIdx_le_length _) hfi
    have hcp_eq : chosenPos (sortByIdx l) maxInt64
        = (sortByIdx l).findIdx (fun t => decide (maxInt64 ≤ t.1)) := by
      simp only [chosenPos]
      rw [if_neg hfi]
    have hge : maxInt64 ≤ ((sortByIdx l)[(sortByIdx l).findIdx
        (fun t => decide (maxInt64 ≤ t.1))]).1 :=
      of_decide_eq_true (List.findIdx_getElem (w := hlt))
    have hub := (logIndexes_idx_range hl u hu).2
    rw [hcp_eq, getD_eq_getElem hlt]
    omega

/-! ## Helper lemmas about the log stream driver run -/

theorem logsRun_adequate {task logType : String} :
    ∀ {listings : List (List AllocFileInfo)} {n : Int},
      listingsAdequate task logType listings n = true →
      (∀ x ∈ logsRun task logType listings n 0, n ≤ x) ∧
      List.Chain' (fun a b : Int => a < b) (logsRun task logType listings n 0) := by
  intro listings
  induction listings with
  | nil =>
    intro n h
    constructor
    · intro x hx
      simp [logsRun] at hx
    · simp [logsRun]
  | cons entries rest ih =>
    intro n h
    simp only [listingsAdequate] at h
    simp only [logsRun]
    cases hfc : findClosest entries n 0 task logType with
    | error m =>
      constructor
      · intro x hx
        simp at hx
      · simp
    | ok r =>
      rw [hfc] at h
      rw [Bool.and_eq_true] at h
      obtain ⟨hany, hrest⟩ := h
      have hge : n ≤ r.2.1 := by
        cases hli : logIndexes entries task logType with
        | error m => rw [hli] at hany; exact absurd hany (by simp)
        | ok l =>
          rw [hli] at hany
          obtain ⟨t, htl, htd⟩ := List.any_eq_true.mp hany
          have hne : l ≠ [] := by
            intro hc
            rw [hc] at htl
            exact absurd htl (List.not_mem_nil t)
          obtain ⟨e0, i0, hfc0, hge0, _⟩ :=
            findClosest_zero_ge hli hne ⟨t, htl, of_decide_eq_true htd⟩
          rw [hfc] at hfc0
          injection hfc0 with hfc0
          rw [hfc0]
          exact hge0
      obtain ⟨hall, hchain⟩ := ih hrest
      constructor
      · intro x hx
        rcases List.mem_cons.mp hx with h' | h'
        · omega
        · have := hall x h'
          omega
      · rw [List.chain'_cons']
        constructor
        · intro b hb
          cases hrun : logsRun task logType rest (r.2.1 + 1) 0 with
          | nil => rw [hrun] at hb; simp at hb
          | cons a tl =>
            rw [hrun] at hb
            simp at hb
            subst hb
            have ha := hall a (by rw [hrun]; exact List.mem_cons_self a tl)
            omega
        · exact hchain

/-! ## Helper lemmas about the file tailer -/

theorem tailReads_invariant : ∀ (ns : List Int) (st : TailState),
    (tailReads st ns).hasLimit = st.hasLimit ∧
    (tailReads st ns).remaining
      = (if st.hasLimit = true then st.remaining - ns.sum else st.remaining) := by
  intro ns
  induction ns with
  | nil =>
    intro st
    constructor
    · rfl
    · simp [tailReads]
  | cons n ns ih =>
    intro st
    simp only [tailReads]
    obtain ⟨h1, h2⟩ := ih (tailRead st n).1
    have hh : (tailRead st n).1.hasLimit = st.hasLimit := rfl
    have hrem : (tailRead st n).1.remaining
        = (if st.hasLimit = true then st.remaining - n else st.remaining) := rfl
    constructor
    · rw [h1, hh]
    · rw [h2, hh, hrem]
      by_cases hl : st.hasLimit = true
      · rw [if_pos hl, if_pos hl, if_pos hl, List.sum_cons]
        ring
      · rw [if_neg hl, if_neg hl, if_neg hl]

/-! ## Claim theorems -/

/-- C1 (counterexample): the claim as stated is false on the code.  First
input: segments 0 and 1 both of size 10, `desiredIdx = MaxInt64` (which
exceeds every present index) and `desiredOffset = -15`; the code returns
segment index 0, not the last segment.  Second input: segments 0 (size 0)
and 1 (size 10) with `desiredOffset = -10`, so `|desiredOffset|` equals the
total size of all present segments; the code returns segment index 1, not
the first present segment. -/
theorem C1_counterexample :
    (findClosest [⟨"t.stdout.0", false, 10⟩, ⟨"t.stdout.1", false, 10⟩]
        maxInt64 (-15) "t" "stdout" = .ok (⟨"t.stdout.0", false, 10⟩, 0, 5) ∧
      (0 : Int) ≠ 1) ∧
    (findClosest [⟨"t.stdout.0", false, 0⟩, ⟨"t.stdout.1", false, 10⟩]
        maxInt64 (-10) "t" "stdout" = .ok (⟨"t.stdout.1", false, 10⟩, 1, 0) ∧
      ((0 : Int) + 10 ≤ 10) ∧ (1 : Int) ≠ 0) :=
  ⟨⟨by decide, by decide⟩, ⟨by decide, by decide, by decide⟩⟩

/-- C1 (amended): for every entry list with non-negative sizes whose filtered
index set for `(task, logType)` is non-empty, `findClosest` returns
`(entry, idx, openOffset)` with `0 ≤ openOffset ≤ size(entry)`; when
`desiredIdx` exceeds every present index and `desiredOffset ≥ 0`, the last
(highest-index) segment is returned; and when `desiredOffset < 0` with
`|desiredOffset|` strictly greater than the total size of all present
segments, the result is the first present segment, its index, and
`openOffset = 0`. -/
theorem C1_findClosest_invariant
    (entries : List AllocFileInfo) (task logType : String) (dIdx dOff : Int)
    (l : List (Int × AllocFileInfo)) (e : AllocFileInfo) (i off : Int)
    (hl : logIndexes entries task logType = .ok l)
    (hnn : ∀ t ∈ l, 0 ≤ t.2.size)
    (hfc : findClosest entries dIdx dOff task logType = .ok (e, i, off)) :
    (0 ≤ off ∧ off ≤ e.size) ∧
    ((∀ t ∈ l, t.1 < dIdx) → 0 ≤ dOff → ((i, e) ∈ l ∧ ∀ t ∈ l, t.1 ≤ i)) ∧
    (dOff < 0 → (l.map (fun t => t.2.size)).sum < -dOff →
      (off = 0 ∧ (i, e) ∈ l ∧ ∀ t ∈ l, i ≤ t.1)) := by
  obtain ⟨l', pos, hl', hne', hr, hi, he⟩ := findClosest_eq hfc
  rw [hl] at hl'
  injection hl' with hl'
  subst hl'
  have hnnS : ∀ t ∈ sortByIdx l, 0 ≤ t.2.size := fun t ht => hnn t (sortByIdx_mem.mp ht)
  have hsne : sortByIdx l ≠ [] := sortByIdx_ne_nil hne'
  have hSpos : 0 < (sortByIdx l).length := List.length_pos.mpr hsne
  have hcplt : chosenPos (sortByIdx l) dIdx < (sortByIdx l).length := chosenPos_lt hsne dIdx
  have hposlt : pos < (sortByIdx l).length := resolveLoop_pos_lt hcplt hr
  have hmem : (i, e) ∈ l := by
    have hmem0 := getD_mem_of_lt (l := sortByIdx l) (n := pos) hposlt
    rw [← hi, ← he]
    exact sortByIdx_mem.mp hmem0
  refine ⟨?_, ?_, ?_⟩
  · obtain ⟨hb1, hb2⟩ := resolveLoop_bounds hnnS hcplt hr
    refine ⟨hb1, ?_⟩
    rw [← he]
    exact hb2
  · intro hall hd0
    have hfalse : ∀ t ∈ sortByIdx l, (fun t : Int × AllocFileInfo => decide (dIdx ≤ t.1)) t
        = false := by
      intro t ht
      simp only [decide_eq_false_iff_not, not_le]
      exact hall t (sortByIdx_mem.mp ht)
    have hfi : (sortByIdx l).findIdx (fun t => decide (dIdx ≤ t.1)) = (sortByIdx l).length :=
      List.findIdx_eq_length_of_false hfalse
    have hcp_eq : chosenPos (sortByIdx l) dIdx = (sortByIdx l).length - 1 := by
      simp only [chosenPos]
      rw [if_pos hfi]
    obtain ⟨o, ho⟩ := @resolveLoop_last_stay (sortByIdx l) (sortByIdx l).length dOff
      (by omega) hd0
    rw [hcp_eq, ho] at hr
    injection hr with hr
    rw [Prod.mk.injEq] at hr
    obtain ⟨hr1, hr2⟩ := hr
    refine ⟨hmem, ?_⟩
    intro t ht
    have hle := sorted_le_last (sortByIdx_sorted l) t (sortByIdx_mem.mpr ht)
    rw [← hi, ← hr1]
    exact hle
  · intro hneg htotal
    have hsum_eq : ((sortByIdx l).map (fun t => t.2.size)).sum
        = (l.map (fun t => t.2.size)).sum := ((sortByIdx_perm l).map _).sum_eq
    have htake := take_map_sum_le hnnS (chosenPos (sortByIdx l) dIdx + 1)
    have hb2 := @resolveLoop_backward (sortByIdx l) hnnS (sortByIdx l).length
      (chosenPos (sortByIdx l) dIdx) dOff hcplt hcplt hneg (by omega)
    rw [hb2] at hr
    injection hr with hr
    rw [Prod.mk.injEq] at hr
    obtain ⟨hr1, hr2⟩ := hr
    refine ⟨hr2.symm, hmem, ?_⟩
    intro t ht
    have hge := sorted_first_le (sortByIdx_sorted l) t (sortByIdx_mem.mpr ht)
    rw [← hi, ← hr1]
    exact hge

/-- C1 (witness): the amended invariant evaluated on a concrete one-segment
directory with `desiredIdx = 5`, `desiredOffset = 3`. -/
theorem C1_findClosest_invariant_witness :
    ((0 : Int) ≤ 3 ∧ (3 : Int) ≤ (⟨"t.stdout.0", false, 10⟩ : AllocFileInfo).size) ∧
    ((∀ t ∈ [((0 : Int), (⟨"t.stdout.0", false, 10⟩ : AllocFileInfo))], t.1 < 5) →
      (0 : Int) ≤ 3 →
      (((0 : Int), (⟨"t.stdout.0", false, 10⟩ : AllocFileInfo))
          ∈ [((0 : Int), (⟨"t.stdout.0", false, 10⟩ : AllocFileInfo))] ∧
        ∀ t ∈ [((0 : Int), (⟨"t.stdout.0", false, 10⟩ : AllocFileInfo))], t.1 ≤ 0)) ∧
    ((3 : Int) < 0 →
      ([((0 : Int), (⟨"t.stdout.0", false, 10⟩ : AllocFileInfo))].map
          (fun t => t.2.size)).sum < -3 →
      ((3 : Int) = 0 ∧
        ((0 : Int), (⟨"t.stdout.0", false, 10⟩ : AllocFileInfo))
          ∈ [((0 : Int), (⟨"t.stdout.0", false, 10⟩ : AllocFileInfo))] ∧
        ∀ t ∈ [((0 : Int), (⟨"t.stdout.0", false, 10⟩ : AllocFileInfo))], 0 ≤ t.1)) :=
  C1_findClosest_invariant [⟨"t.stdout.0", false, 10⟩] "t" "stdout" 5 3
    [(0, ⟨"t.stdout.0", false, 10⟩)] ⟨"t.stdout.0", false, 10⟩ 0 3
    (by decide) (by decide) (by decide)

/-- C2 (counterexample): the claim as stated quantifies over every sequence of
directory listings; with listings `[0,1]`, `[0,1]`, `[0]` and `origin = start`
the successful iterations stream indexes `0, 1, 0`: segment 0 is revisited and
the `nextIdx` sequence `1, 2, 1` is not strictly increasing. -/
theorem C2_counterexample :
    logsRun "t" "stdout"
      [[⟨"t.stdout.0", false, 5⟩, ⟨"t.stdout.1", false, 5⟩],
       [⟨"t.stdout.0", false, 5⟩, ⟨"t.stdout.1", false, 5⟩],
       [⟨"t.stdout.0", false, 5⟩]] 0 0 = [0, 1, 0] ∧
    ¬ List.Pairwise (fun a b : Int => a < b) [0, 1, 0] := by
  constructor
  · decide
  · intro h
    rw [List.pairwise_cons] at h
    have := h.1 0 (by simp)
    omega

/-- C2 (amended): across successful iterations of the `logsImpl` segment loop
with `signedOffset = 0` (every iteration after the first), provided each
iteration's listing contains a parsed segment index at least the current
`nextIdx`, the streamed indexes are strictly increasing (so no completed
segment index is revisited), and the `nextIdx` sequence — the initial value
followed by `idx + 1` after each completed segment — is strictly
increasing. -/
theorem C2_nextIdx_increasing
    (listings : List (List AllocFileInfo)) (n : Int) (task logType : String)
    (h : listingsAdequate task logType listings n = true) :
    List.Pairwise (fun a b : Int => a < b) (logsRun task logType listings n 0) ∧
    List.Chain' (fun a b : Int => a < b)
      (n :: (logsRun task logType listings n 0).map (fun x => x + 1)) := by
  obtain ⟨hall, hchain⟩ := logsRun_adequate h
  constructor
  · exact List.chain'_iff_pairwise.mp hchain
  · rw [List.chain'_cons']
    constructor
    · intro b hb
      cases hrun : logsRun task logType listings n 0 with
      | nil =>
        rw [hrun] at hb
        simp at hb
      | cons a tl =>
        rw [hrun] at hb
        simp at hb
        subst hb
        have ha := hall a (by rw [hrun]; exact List.mem_cons_self a tl)
        omega
    · rw [List.chain'_map]
      exact List.Chain'.imp (fun a b hab => by omega) hchain

/-- C2 (witness): a two-listing run whose listings always contain the awaited
index; the streamed indexes `[0, 1]` and the `nextIdx` trace `0, 1, 2` are
strictly increasing. -/
theorem C2_nextIdx_increasing_witness :
    List.Pairwise (fun a b : Int => a < b)
      (logsRun "t" "stdout" [[⟨"t.stdout.0", false, 1⟩], [⟨"t.stdout.1", false, 1⟩]] 0 0) ∧
    List.Chain' (fun a b : Int => a < b)
      ((0 : Int) :: (logsRun "t" "stdout"
        [[⟨"t.stdout.0", false, 1⟩], [⟨"t.stdout.1", false, 1⟩]] 0 0).map (fun x => x + 1)) :=
  C2_nextIdx_increasing [[⟨"t.stdout.0", false, 1⟩], [⟨"t.stdout.1", false, 1⟩]] 0 "t" "stdout"
    (by decide)

/-- C10 (confirmed): the offset-resolution loop of `findClosest` terminates for
every non-empty filtered index set and every desired index and offset: with
fuel equal to the number of matching segments the walk always produces a
result, so `findClosest` returns `.ok` (the fuel-exhaustion branch of the
embedding is unreachable).  Each backward step strictly decreases the
position, bounded below by the first segment; each forward step strictly
increases it, bounded above by the last. -/
theorem C10_findClosest_terminates
    (entries : List AllocFileInfo) (task logType : String) (dIdx dOff : Int)
    (l : List (Int × AllocFileInfo))
    (hl : logIndexes entries task logType = .ok l) (hne : l ≠ []) :
    ∃ e i off, findClosest entries dIdx dOff task logType = .ok (e, i, off) := by
  have hsne : sortByIdx l ≠ [] := sortByIdx_ne_nil hne
  have hcplt : chosenPos (sortByIdx l) dIdx < (sortByIdx l).length := chosenPos_lt hsne dIdx
  obtain ⟨r, hr⟩ := @resolveLoop_some (sortByIdx l) (sortByIdx l).length
    (chosenPos (sortByIdx l) dIdx) dOff hcplt (fun _ => hcplt) (fun _ => by omega)
  obtain ⟨pos, off⟩ := r
  exact ⟨_, _, _, findClosest_of hl hne hr⟩

/-- C10 (witness): termination on a concrete two-segment directory with a
large negative desired offset. -/
theorem C10_findClosest_terminates_witness :
    ∃ e i off, findClosest [⟨"t.stdout.0", false, 3⟩, ⟨"t.stdout.2", false, 4⟩]
      maxInt64 (-1000) "t" "stdout" = .ok (e, i, off) :=
  C10_findClosest_terminates [⟨"t.stdout.0", false, 3⟩, ⟨"t.stdout.2", false, 4⟩]
    "t" "stdout" maxInt64 (-1000)
    [(0, ⟨"t.stdout.0", false, 3⟩), (2, ⟨"t.stdout.2", false, 4⟩)]
    (by decide) (by decide)

/-- C3 (confirmed): in `logsImpl` with `follow = false`, `maxIndex` is
computed at the head of every iteration as
`findClosest(entries, MaxInt64, 0, ...)` and equals the largest parsed index
present in that iteration's listing; the iteration plan returns (nothing more
to read) when the selected `idx` exceeds `maxIndex`, tails the segment with an
already-closed `eofCancel` and `exitAfter = true` when `idx = maxIndex` — and
then a successful `streamFile` return makes the driver return — and otherwise
waits on `blockUntilNextLog(..., idx + 1)`. -/
theorem C3_nofollow_terminal_policy
    (entries : List AllocFileInfo) (task logType : String) (nextIdx offset : Int)
    (l : List (Int × AllocFileInfo))
    (hl : logIndexes entries task logType = .ok l) (hne : l ≠ []) :
    ∃ eM iM, findClosest entries maxInt64 0 task logType = .ok (eM, iM, 0) ∧
      (iM, eM) ∈ l ∧ (∀ t ∈ l, t.1 ≤ iM) ∧
      (∀ e i o, findClosest entries nextIdx offset task logType = .ok (e, i, o) →
        (iM < i → planSegment false entries nextIdx offset task logType = .ok .stop) ∧
        (i = iM → planSegment false entries nextIdx offset task logType
            = .ok (.tailLast e i o) ∧ afterStreamFile none true false = .returnClean) ∧
        (i < iM → planSegment false entries nextIdx offset task logType
            = .ok (.tailAwait e i o (i + 1)))) := by
  obtain ⟨eM, iM, hM, hmem, hmax⟩ := findClosest_max hl hne
  refine ⟨eM, iM, hM, hmem, hmax, ?_⟩
  intro e i o hfc
  refine ⟨?_, ?_, ?_⟩
  · intro hlt
    simp only [planSegment, hM, hfc]
    rw [if_pos ⟨by trivial, hlt⟩]
  · intro heq
    refine ⟨?_, rfl⟩
    simp only [planSegment, hM, hfc]
    rw [if_neg (by rintro ⟨-, hc⟩; omega), if_pos ⟨by trivial, heq⟩]
  · intro hlt
    simp only [planSegment, hM, hfc]
    rw [if_neg (by rintro ⟨-, hc⟩; omega), if_neg (by rintro ⟨-, hc⟩; omega)]

/-- C3 (witness): the terminal policy evaluated on a concrete one-segment
directory: the single segment is the max index, so the plan tails it with a
closed `eofCancel` and `exitAfter = true`, and the driver then returns. -/
theorem C3_nofollow_terminal_policy_witness :
    ∃ eM iM, findClosest [⟨"t.stdout.0", false, 4⟩] maxInt64 0 "t" "stdout"
        = .ok (eM, iM, 0) ∧
      (iM, eM) ∈ [((0 : Int), (⟨"t.stdout.0", false, 4⟩ : AllocFileInfo))] ∧
      (∀ t ∈ [((0 : Int), (⟨"t.stdout.0", false, 4⟩ : AllocFileInfo))], t.1 ≤ iM) ∧
      (∀ e i o, findClosest [⟨"t.stdout.0", false, 4⟩] 0 0 "t" "stdout" = .ok (e, i, o) →
        (iM < i → planSegment false [⟨"t.stdout.0", false, 4⟩] 0 0 "t" "stdout" = .ok .stop) ∧
        (i = iM → planSegment false [⟨"t.stdout.0", false, 4⟩] 0 0 "t" "stdout"
            = .ok (.tailLast e i o) ∧ afterStreamFile none true false = .returnClean) ∧
        (i < iM → planSegment false [⟨"t.stdout.0", false, 4⟩] 0 0 "t" "stdout"
            = .ok (.tailAwait e i o (i + 1)))) :=
  C3_nofollow_terminal_policy [⟨"t.stdout.0", false, 4⟩] "t" "stdout" 0 0
    [(0, ⟨"t.stdout.0", false, 4⟩)] (by decide) (by decide)

/-- C4 (counterexample): with segments 0 (size 100) and 2 (size 50),
`origin = end` and `offset = 80` — i.e. `findClosest(entries, MaxInt64, -80)`
— the code opens segment index 0 at byte 70, not byte 70 of segment 2 as the
claim states. -/
theorem C4_counterexample :
    findClosest [⟨"web.stdout.0", false, 100⟩, ⟨"web.stdout.2", false, 50⟩]
      maxInt64 (-80) "web" "stdout" = .ok (⟨"web.stdout.0", false, 100⟩, 0, 70) ∧
    (0 : Int) ≠ 2 :=
  ⟨by decide, by decide⟩

/-- C4 (amended): for the two present segments 0 (size 100) and 2 (size 50),
an end-origin offset of 80 positions the first payload byte at byte 70 of
segment 0: the backward walk starts at the last present segment (index 2,
array position 1), consumes its 50 bytes, and moves directly to the previous
present segment (index 0, array position 0) — absent index 1 is never
traversed, because the walk steps through positions of the present-segment
array only. -/
theorem C4_end_origin_walk :
    logIndexes [⟨"web.stdout.0", false, 100⟩, ⟨"web.stdout.2", false, 50⟩] "web" "stdout"
      = .ok [(0, ⟨"web.stdout.0", false, 100⟩), (2, ⟨"web.stdout.2", false, 50⟩)] ∧
    findClosest [⟨"web.stdout.0", false, 100⟩, ⟨"web.stdout.2", false, 50⟩]
      maxInt64 (-80) "web" "stdout" = .ok (⟨"web.stdout.0", false, 100⟩, 0, 70) ∧
    resolveLoop [(0, ⟨"web.stdout.0", false, 100⟩), (2, ⟨"web.stdout.2", false, 50⟩)]
      2 1 (-80) = some (0, 70) :=
  ⟨by decide, by decide, by decide⟩

/-- C5 (counterexample): the filename `t.stdout.-1` carries the matching
prefix but its suffix `-1` is not a non-negative decimal integer; Go's
`strconv.Atoi` still parses it, so `logIndexes` accepts the entry with the
negative index `-1` instead of erroring or excluding it. -/
theorem C5_counterexample :
    logIndexes [⟨"t.stdout.-1", false, 7⟩] "t" "stdout"
      = .ok [(-1, ⟨"t.stdout.-1", false, 7⟩)] ∧ (-1 : Int) < 0 :=
  ⟨by decide, by decide⟩

/-- C5 (amended): every tuple `(idx, fileInfo)` returned by `logIndexes` has
`idx` equal to the (possibly negative, optionally signed) decimal integer that
`strconv.Atoi` parses from the suffix of a non-directory entry carrying the
`<task>.<logType>.` prefix; conversely, when `logIndexes` succeeds, every
non-directory entry with the matching prefix had an `Atoi`-parsable suffix and
its tuple is in the result — a suffix that fails signed-decimal parsing causes
a hard error for the whole call. -/
theorem C5_logIndexes_parse
    (entries : List AllocFileInfo) (task logType : String)
    (l : List (Int × AllocFileInfo))
    (h : logIndexes entries task logType = .ok l) :
    (∀ t ∈ l, t.2 ∈ entries ∧ t.2.isDir = false ∧
      goTrimPrefix t.2.name (task ++ "." ++ logType ++ ".") ≠ t.2.name ∧
      goAtoi (goTrimPrefix t.2.name (task ++ "." ++ logType ++ ".")) = some t.1) ∧
    (∀ e ∈ entries, e.isDir = false →
      goTrimPrefix e.name (task ++ "." ++ logType ++ ".") ≠ e.name →
      ∃ i, goAtoi (goTrimPrefix e.name (task ++ "." ++ logType ++ ".")) = some i ∧
        (i, e) ∈ l) :=
  ⟨logIndexesAux_sound h, logIndexesAux_complete h⟩

/-- C5 (witness): the parse characterization evaluated on a concrete listing
containing a directory, a non-matching name and a matching segment file. -/
theorem C5_logIndexes_parse_witness :
    (∀ t ∈ [((3 : Int), (⟨"t.stdout.3", false, 9⟩ : AllocFileInfo))],
      t.2 ∈ [(⟨"sub", true, 0⟩ : AllocFileInfo), ⟨"other.file", false, 1⟩,
        ⟨"t.stdout.3", false, 9⟩] ∧ t.2.isDir = false ∧
      goTrimPrefix t.2.name ("t" ++ "." ++ "stdout" ++ ".") ≠ t.2.name ∧
      goAtoi (goTrimPrefix t.2.name ("t" ++ "." ++ "stdout" ++ ".")) = some t.1) ∧
    (∀ e ∈ [(⟨"sub", true, 0⟩ : AllocFileInfo), ⟨"other.file", false, 1⟩,
        ⟨"t.stdout.3", false, 9⟩], e.isDir = false →
      goTrimPrefix e.name ("t" ++ "." ++ "stdout" ++ ".") ≠ e.name →
      ∃ i, goAtoi (goTrimPrefix e.name ("t" ++ "." ++ "stdout" ++ ".")) = some i ∧
        (i, e) ∈ [((3 : Int), (⟨"t.stdout.3", false, 9⟩ : AllocFileInfo))]) :=
  C5_logIndexes_parse [⟨"sub", true, 0⟩, ⟨"other.file", false, 1⟩, ⟨"t.stdout.3", false, 9⟩]
    "t" "stdout" [(3, ⟨"t.stdout.3", false, 9⟩)] (by decide)

/-- C6 (confirmed): when `streamFile` handles a `Truncated` event after any
sequence of reads, it reopens at offset 0, records the pending
`"file truncated"` event — which is attached to the next frame sent, whose
post-payload offset is exactly the payload length — and, with a positive
limit in force, caps the new reader at the bytes remaining from the original
limit at the moment of truncation (`limit - bytes already read`), not at the
full original limit. -/
theorem C6_truncate_remaining_limit
    (offset limit : Int) (ns : List Int) (m : Int) (hpos : 0 < limit) :
    (tailTruncate (tailReads (initTailState offset limit) ns)).offset = 0 ∧
    (tailTruncate (tailReads (initTailState offset limit) ns)).lastEvent = truncateEvent ∧
    (tailTruncate (tailReads (initTailState offset limit) ns)).remaining = limit - ns.sum ∧
    (tailRead (tailTruncate (tailReads (initTailState offset limit) ns)) m).2
      = some (truncateEvent, m) := by
  have hinit : (initTailState offset limit).hasLimit = true := decide_eq_true hpos
  obtain ⟨h1, h2⟩ := tailReads_invariant ns (initTailState offset limit)
  refine ⟨rfl, rfl, ?_, ?_⟩
  · show (tailReads (initTailState offset limit) ns).remaining = limit - ns.sum
    rw [h2, hinit, if_pos rfl]
    rfl
  · have hev : (tailTruncate (tailReads (initTailState offset limit) ns)).lastEvent ≠ "" := by
      show truncateEvent ≠ ""
      decide
    simp only [tailRead]
    rw [if_pos (Or.inr hev)]
    simp [tailTruncate]

/-- C6 (witness): truncation after reading 30 of a 100-byte limit leaves a
cap of 70 bytes, and the next 5-byte read emits the `"file truncated"` frame
at offset 5. -/
theorem C6_truncate_remaining_limit_witness :
    (tailTruncate (tailReads (initTailState 0 100) [30])).offset = 0 ∧
    (tailTruncate (tailReads (initTailState 0 100) [30])).lastEvent = truncateEvent ∧
    (tailTruncate (tailReads (initTailState 0 100) [30])).remaining = 100 - ([30] : List Int).sum ∧
    (tailRead (tailTruncate (tailReads (initTailState 0 100) [30])) 5).2
      = some (truncateEvent, 5) :=
  C6_truncate_remaining_limit 0 100 [30] 5 (by decide)

/-- C7 (confirmed): `parseFramerErr` maps every non-nil error whose message
contains the closed-pipe text (Go's `io: read/write on closed pipe` or the
platform's `broken pipe`), the connection-reset text, or the Windows
`forcibly closed` text to the single `syscall.EPIPE` sentinel, returns every
other non-nil error unchanged, and passes nil through; and the `logsImpl`
error dispatch returns nil — a clean, silent exit — whenever `streamFile`
returns that sentinel. -/
theorem C7_broken_pipe_mapping :
    (∀ e : GoError,
      (goContains e.message ioErrClosedPipeMsg = true ∨
       goContains e.message epipeMsg = true ∨
       goContains e.message econnresetMsg = true ∨
       goContains e.message "forcibly closed" = true) →
      parseFramerErr (some e) = some .epipe) ∧
    (∀ e : GoError,
      goContains e.message ioErrClosedPipeMsg = false →
      goContains e.message epipeMsg = false →
      goContains e.message econnresetMsg = false →
      goContains e.message "forcibly closed" = false →
      parseFramerErr (some e) = some e) ∧
    parseFramerErr none = none ∧
    (∀ exitAfter framerExited : Bool,
      afterStreamFile (some .epipe) exitAfter framerExited = .returnClean) := by
  refine ⟨?_, ?_, rfl, ?_⟩
  · intro e he
    simp only [parseFramerErr]
    split_ifs with h1 h2 h3
    · rfl
    · rfl
    · rfl
    · exfalso
      rcases he with h | h | h | h
      · exact h1 h
      · exact h2 (by simp [h])
      · exact h2 (by simp [h])
      · exact h3 h
  · intro e h1 h2 h3 h4
    simp only [parseFramerErr]
    rw [if_neg (by simp [h1]), if_neg (by simp [h2, h3]), if_neg (by simp [h4])]
  · intro exitAfter framerExited
    rfl

/-- C7 (witness): a framer error carrying the broken-pipe text is remapped to
the sentinel, an unrelated error is returned unchanged, and the dispatch
exits cleanly on the sentinel. -/
theorem C7_broken_pipe_mapping_witness :
    parseFramerErr (some (.errString "write tcp 1.2.3.4: broken pipe")) = some .epipe ∧
    parseFramerErr (some (.errString "disk full")) = some (.errString "disk full") ∧
    afterStreamFile (some .epipe) false true = .returnClean :=
  ⟨C7_broken_pipe_mapping.1 (.errString "write tcp 1.2.3.4: broken pipe")
      (Or.inr (Or.inl (by decide))),
    C7_broken_pipe_mapping.2.1 (.errString "disk full")
      (by decide) (by decide) (by decide) (by decide),
    C7_broken_pipe_mapping.2.2.2 false true⟩

/-- C8 (counterexample): the claim quantifies over every stat size and every
requested offset, but the subtraction `size - offset` is `int64` arithmetic:
at `size = 0`, `offset = -2^63` it wraps to `-2^63`, which the code clamps to
0, while `max(0, size - offset) = 2^63`. -/
theorem C8_counterexample :
    computeStreamOffset "end" (-(2 ^ 63)) 0 = 0 ∧
    max 0 ((0 : Int) - -(2 ^ 63)) = 2 ^ 63 ∧ (0 : Int) ≠ 2 ^ 63 :=
  ⟨by decide, by decide, by decide⟩

/-- C8 (amended): in the file-stream session handler, when the origin is
`end` the starting offset equals `max(0, size - requestedOffset)` for every
stat size and requested offset for which `size - requestedOffset` does not
overflow `int64` (in particular for every non-negative requested offset);
when the origin is `start` — to which the empty origin is normalized — the
requested offset is used unchanged. -/
theorem C8_stream_offset :
    (∀ size off : Int, 0 ≤ size → size ≤ 2 ^ 63 - 1 →
      -(2 ^ 63) ≤ off → off ≤ 2 ^ 63 - 1 → size - off ≤ 2 ^ 63 - 1 →
      computeStreamOffset "end" off size = max 0 (size - off)) ∧
    (∀ size off : Int, computeStreamOffset "start" off size = off) ∧
    normalizeOrigin "" = .ok "start" ∧ normalizeOrigin "start" = .ok "start" ∧
    normalizeOrigin "end" = .ok "end" := by
  refine ⟨?_, ?_, by decide, by decide, by decide⟩
  · intro size off h1 h2 h3 h4 h5
    have hw : int64Wrap (size - off) = size - off := by
      unfold int64Wrap
      rw [Int.emod_eq_of_lt (by omega) (by omega)]
      ring
    unfold computeStreamOffset
    rw [if_pos rfl]
    show (if int64Wrap (size - off) < 0 then 0 else int64Wrap (size - off)) = max 0 (size - off)
    rw [hw]
    rcases le_or_lt 0 (size - off) with h | h
    · rw [if_neg (by omega), max_eq_right h]
    · rw [if_pos h, max_eq_left (by omega)]
  · intro size off
    rw [computeStreamOffset, if_neg (by decide)]

/-- C8 (witness): the amended offset rule at `size = 100`, `offset = 30`
(origin `end`) gives 70, and origin `start` passes 30 through. -/
theorem C8_stream_offset_witness :
    computeStreamOffset "end" 30 100 = max 0 ((100 : Int) - 30) ∧
    computeStreamOffset "start" 30 100 = 30 :=
  ⟨C8_stream_offset.1 100 30 (by decide) (by decide) (by decide) (by decide) (by decide),
    C8_stream_offset.2.1 100 30⟩

/-- C9 (confirmed): with a resolved ACL object, the logs endpoint denies the
request exactly when the namespace grants neither the read-fs nor the
read-logs capability — so read-logs alone suffices for logs — while the
file-stream endpoint denies exactly when read-fs is not granted, so read-logs
alone does not suffice there. -/
theorem C9_acl_capabilities :
    ∀ (a : ACLObject) (ns : String),
      (logsPermissionDenied (some a) ns = true ↔
        (a.allowNsOp ns NamespaceCapabilityReadFS = false ∧
         a.allowNsOp ns NamespaceCapabilityReadLogs = false)) ∧
      (streamPermissionDenied (some a) ns = true ↔
        a.allowNsOp ns NamespaceCapabilityReadFS = false) ∧
      (a.allowNsOp ns NamespaceCapabilityReadLogs = true →
        logsPermissionDenied (some a) ns = false) ∧
      (a.allowNsOp ns NamespaceCapabilityReadLogs = true →
        a.allowNsOp ns NamespaceCapabilityReadFS = false →
        logsPermissionDenied (some a) ns = false ∧
        streamPermissionDenied (some a) ns = true) := by
  intro a ns
  cases hfs : a.allowNsOp ns NamespaceCapabilityReadFS <;>
    cases hlg : a.allowNsOp ns NamespaceCapabilityReadLogs <;>
      simp [logsPermissionDenied, streamPermissionDenied, hfs, hlg]

/-- C9 (witness): a token granting only read-logs in namespace `default` may
stream logs but not files. -/
theorem C9_acl_capabilities_witness :
    logsPermissionDenied
      (some ⟨fun _ c => decide (c = NamespaceCapabilityReadLogs)⟩) "default" = false ∧
    streamPermissionDenied
      (some ⟨fun _ c => decide (c = NamespaceCapabilityReadLogs)⟩) "default" = true :=
  (C9_acl_capabilities ⟨fun _ c => decide (c = NamespaceCapabilityReadLogs)⟩ "default").2.2.2
    (by decide) (by decide)

end FsEndpoint
